import Mathlib

/-!
Shallow embedding of the simulation engine of `advanced_node_features.py`
(transaction pool, mining simulator, node metric model, network simulator),
together with proofs of the specified properties.

Modelling conventions:
* Python strings are modelled as their UTF-8 byte sequences (`List Nat`),
  except incidental identity fields, which stay `String`.
* Python `float` arithmetic is modelled exactly over `ℚ` (every Python float
  is a rational and all arithmetic appearing here is exact at these scales).
* Python `int` is modelled as `ℤ` (or `ℕ` where the source value is a
  counter that never goes negative).
* `random.*` draws are passed in as explicit parameters, so theorems
  quantify over all possible draws.
* Wall-clock observations (`time.time()`, `datetime.now()`) and purely
  informational random fields (`mining_power`) are omitted: no control flow
  of the modelled operations reads them.
-/

/-! ### SHA-256 (`hashlib.sha256(...).hexdigest()`) -/

/-- Truncation to a 32-bit word. -/
def w32 (n : Nat) : Nat := n % 4294967296

/-- Rotation of a 32-bit word to the right by `k` bits. -/
def rotr (k x : Nat) : Nat := w32 ((x >>> k) ||| (x <<< (32 - k)))

/-- Bitwise choice, one of the SHA-256 round primitives. -/
def ch (e f g : Nat) : Nat := (e &&& f) ^^^ ((e ^^^ 4294967295) &&& g)

/-- Bitwise majority, one of the SHA-256 round primitives. -/
def maj (a b c : Nat) : Nat := (a &&& b) ^^^ (a &&& c) ^^^ (b &&& c)

/-- The SHA-256 Σ₀ function. -/
def bigS0 (x : Nat) : Nat := rotr 2 x ^^^ rotr 13 x ^^^ rotr 22 x

/-- The SHA-256 Σ₁ function. -/
def bigS1 (x : Nat) : Nat := rotr 6 x ^^^ rotr 11 x ^^^ rotr 25 x

/-- The SHA-256 σ₀ function. -/
def smallS0 (x : Nat) : Nat := rotr 7 x ^^^ rotr 18 x ^^^ (x >>> 3)

/-- The SHA-256 σ₁ function. -/
def smallS1 (x : Nat) : Nat := rotr 17 x ^^^ rotr 19 x ^^^ (x >>> 10)

/-- The 64 round constants of SHA-256 (decimal form). -/
def sha256K : List Nat :=
  [1116352408, 1899447441, 3049323471, 3921009573, 961987163, 1508970993,
   2453635748, 2870763221, 3624381080, 310598401, 607225278, 1426881987,
   1925078388, 2162078206, 2614888103, 3248222580, 3835390401, 4022224774,
   264347078, 604807628, 770255983, 1249150122, 1555081692, 1996064986,
   2554220882, 2821834349, 2952996808, 3210313671, 3336571891, 3584528711,
   113926993, 338241895, 666307205, 773529912, 1294757372, 1396182291,
   1695183700, 1986661051, 2177026350, 2456956037, 2730485921, 2820302411,
   3259730800, 3345764771, 3516065817, 3600352804, 4094571909, 275423344,
   430227734, 506948616, 659060556, 883997877, 958139571, 1322822218,
   1537002063, 1747873779, 1955562222, 2024104815, 2227730452, 2361852424,
   2428436474, 2756734187, 3204031479, 3329325298]

/-- The eight initial hash-state words of SHA-256 (decimal form). -/
def sha256H0 : List Nat :=
  [1779033703, 3144134277, 1013904242, 2773480762, 1359893119, 2600822924, 528734635, 1541459225]

/-- Big-endian packing of groups of 4 bytes into 32-bit words. -/
def bytesToWords : List Nat → List Nat
  | b0 :: b1 :: b2 :: b3 :: rest =>
      (((b0 * 256 + b1) * 256 + b2) * 256 + b3) :: bytesToWords rest
  | _ => []

/-- Message-schedule extension: `recent` holds the schedule words produced so
far, most recent first; produces the next `k` words in order. -/
def extendSchedule : List Nat → Nat → List Nat
  | _, 0 => []
  | recent, k+1 =>
      let nw := w32 (smallS1 (recent.getD 1 0) + recent.getD 6 0 +
                     smallS0 (recent.getD 14 0) + recent.getD 15 0)
      nw :: extendSchedule (nw :: recent) k

/-- The 64 compression rounds, folded over the (constant, schedule-word) pairs. -/
def rounds : List (Nat × Nat) → Nat × Nat × Nat × Nat × Nat × Nat × Nat × Nat →
    Nat × Nat × Nat × Nat × Nat × Nat × Nat × Nat
  | [], st => st
  | (ki, wi) :: rest, (a, b, c, d, e, f, g, h) =>
      let t1 := w32 (h + bigS1 e + ch e f g + ki + wi)
      let t2 := w32 (bigS0 a + maj a b c)
      rounds rest (w32 (t1 + t2), a, b, c, w32 (d + t1), e, f, g)

/-- Compression of one 64-byte block into the running hash state. -/
def compressBlock (hs : List Nat) (block : List Nat) : List Nat :=
  let w16 := bytesToWords block
  let w := w16 ++ extendSchedule w16.reverse 48
  match hs with
  | [h0, h1, h2, h3, h4, h5, h6, h7] =>
      let (a, b, c, d, e, f, g, h) :=
        rounds (sha256K.zip w) (h0, h1, h2, h3, h4, h5, h6, h7)
      [w32 (h0 + a), w32 (h1 + b), w32 (h2 + c), w32 (h3 + d),
       w32 (h4 + e), w32 (h5 + f), w32 (h6 + g), w32 (h7 + h)]
  | _ => hs

/-- Splitting a byte list into 64-byte blocks (fuel-driven; any fuel at least
the list length gives all blocks). -/
def chunks64 : Nat → List Nat → List (List Nat)
  | 0, _ => []
  | _, [] => []
  | fuel+1, l => l.take 64 :: chunks64 fuel (l.drop 64)

/-- SHA-256 padding: append `0x80`, zeros, and the 64-bit big-endian bit length. -/
def padMessage (msg : List Nat) : List Nat :=
  let l := msg.length
  let zeros := (64 + 55 - l % 64) % 64
  let bitLen := 8 * l
  msg ++ [128] ++ List.replicate zeros 0 ++
    [(bitLen >>> 56) % 256, (bitLen >>> 48) % 256, (bitLen >>> 40) % 256, (bitLen >>> 32) % 256,
     (bitLen >>> 24) % 256, (bitLen >>> 16) % 256, (bitLen >>> 8) % 256, bitLen % 256]

/-- Big-endian bytes of a 32-bit word. -/
def wordToBytes (x : Nat) : List Nat :=
  [(x >>> 24) % 256, (x >>> 16) % 256, (x >>> 8) % 256, x % 256]

/-- Lowercase hex characters of a byte, as ASCII codes. -/
def byteToHex (b : Nat) : List Nat :=
  let hd := fun n => if n < 10 then 48 + n else 87 + n
  [hd (b / 16), hd (b % 16)]

/-- SHA-256 of a byte sequence, as the 64 lowercase hex digest characters
(ASCII codes): the model of `hashlib.sha256(data).hexdigest()`. -/
def sha256hex (msg : List Nat) : List Nat :=
  let padded := padMessage msg
  let hs := (chunks64 padded.length padded).foldl compressBlock sha256H0
  (hs.foldr (fun w acc => wordToBytes w ++ acc) []).foldr (fun b acc => byteToHex b ++ acc) []

/-! ### Python string helpers -/

/-- UTF-8 encoding of one character (Python `str.encode()`). -/
def utf8Bytes (c : Char) : List Nat :=
  let n := c.toNat
  if n < 128 then [n]
  else if n < 2048 then [192 ||| (n >>> 6), 128 ||| (n &&& 63)]
  else if n < 65536 then
    [224 ||| (n >>> 12), 128 ||| ((n >>> 6) &&& 63), 128 ||| (n &&& 63)]
  else
    [240 ||| (n >>> 18), 128 ||| ((n >>> 12) &&& 63),
     128 ||| ((n >>> 6) &&& 63), 128 ||| (n &&& 63)]

/-- UTF-8 bytes of a string (used to write concrete payloads in theorems). -/
def strBytes (s : String) : List Nat := (s.toList.map utf8Bytes).flatten

/-- Decimal-digit ASCII codes, accumulator form (fuel-driven). -/
def digitsAux : Nat → Nat → List Nat → List Nat
  | 0, _, acc => acc
  | _, 0, acc => acc
  | fuel+1, n, acc => digitsAux fuel (n / 10) ((48 + n % 10) :: acc)

/-- ASCII codes of the decimal representation of `n` (Python `str(n)` for a
nonnegative `int`, UTF-8 encoded). -/
def asciiDigits (n : Nat) : List Nat :=
  if n = 0 then [48] else digitsAux (n + 1) n []

/-- Truncation of a rational toward zero: Python `int(x)` applied to a float
(the denominator is positive, so `Int.tdiv` rounds the quotient toward zero). -/
def pyInt (q : ℚ) : ℤ := q.num.tdiv q.den

/-! ### `MiningSimulator` -/

/-- State of `MiningSimulator`. The informational field `mining_power`
(a random hashrate never read by any control flow) is omitted. -/
structure MiningSimulator where
  difficulty : ℤ
  current_nonce : ℕ
  target_hash : List Nat
  deriving DecidableEq

/-- `MiningSimulator.__init__(difficulty)`: nonce cursor 0 and target
`"0" * 4`, independent of the difficulty argument. -/
def MiningSimulator.init (difficulty : ℤ) : MiningSimulator :=
  { difficulty := difficulty, current_nonce := 0, target_hash := List.replicate 4 48 }

/-- The `while self.current_nonce < 1000000` search loop of `mine_block`,
with the remaining iteration count made explicit as fuel (the caller passes
`1000000 - current_nonce`, so the loop exits exactly when the cursor reaches
1000000). Returns the Python return value (`None` or the hash/nonce pair of
the result dict; `mining_time` and `hashrate` are observational only) together
with the final value of `self.current_nonce`. -/
def mineLoop (data target : List Nat) : Nat → Nat → Option (List Nat × Nat) × Nat
  | 0, nonce => (none, nonce)
  | fuel+1, nonce =>
      let h := sha256hex (data ++ asciiDigits nonce)
      if target.isPrefixOf h then (some (h, nonce), nonce)
      else mineLoop data target fuel (nonce + 1)

/-- `MiningSimulator.mine_block(block_data)`. Note the cursor
`self.current_nonce` is *not* reset: the search resumes wherever the previous
call left it. -/
def mine_block (s : MiningSimulator) (block_data : List Nat) :
    Option (List Nat × Nat) × MiningSimulator :=
  let r := mineLoop block_data s.target_hash (1000000 - s.current_nonce) s.current_nonce
  (r.1, { s with current_nonce := r.2 })

/-- `MiningSimulator.adjust_difficulty(block_time)`: the ×1.5 / ×0.75
feedback controller around the target time 600, followed by the target-hash
recomputation `"0" * (difficulty // 1000000 + 1)` (Python `//` is floor
division, and `"0" * k` is empty for `k ≤ 0`). -/
def adjust_difficulty (s : MiningSimulator) (block_time : ℚ) : MiningSimulator :=
  let target_time : ℚ := 600
  let d :=
    if block_time < target_time * (1/2) then pyInt ((s.difficulty : ℚ) * (3/2))
    else if block_time > target_time * 2 then pyInt ((s.difficulty : ℚ) * (3/4))
    else s.difficulty
  { difficulty := d, current_nonce := s.current_nonce,
    target_hash := List.replicate (d.fdiv 1000000 + 1).toNat 48 }

/-! ### `Transaction` and `TransactionPool` -/

/-- `Transaction` (from `crypto_node_emulator_main.py`), restricted to the
fields the pool reads; `timestamp` is omitted (wall clock). -/
structure Transaction where
  tx_id : String
  from_addr : String
  to_addr : String
  amount : ℚ
  fee : ℚ
  deriving DecidableEq

/-- State of `TransactionPool`. -/
structure TransactionPool where
  transactions : List Transaction
  max_pool_size : ℕ
  deriving DecidableEq

/-- `TransactionPool.__init__()`. -/
def TransactionPool.init : TransactionPool :=
  { transactions := [], max_pool_size := 10000 }

/-- `TransactionPool.add_transaction(transaction)`: returns the Python
boolean result together with the updated pool. -/
def add_transaction (p : TransactionPool) (t : Transaction) : Bool × TransactionPool :=
  if p.transactions.length < p.max_pool_size then
    (true, { p with transactions := p.transactions ++ [t] })
  else (false, p)

/-- Stable insertion of `t` in front of the first element whose fee is not
larger (so on equal fees `t`, which originated earlier in the input, stays
first). -/
def insertByFeeDesc (t : Transaction) : List Transaction → List Transaction
  | [] => [t]
  | u :: us => if u.fee ≤ t.fee then t :: u :: us else u :: insertByFeeDesc t us

/-- `sorted(self.transactions, key=lambda x: x.fee, reverse=True)`: Python's
sort is stable with ties kept in original order. This insertion sort is
proved below to be the (unique) fee-descending stable sort: it permutes its
input (`sortByFeeDesc_perm`), sorts it by fee in non-increasing order
(`sortByFeeDesc_sorted`), and preserves the relative order of equal-fee
entries (`sortByFeeDesc_stable`); those three properties determine
`sorted(..., reverse=True)` exactly. -/
def sortByFeeDesc : List Transaction → List Transaction
  | [] => []
  | t :: ts => insertByFeeDesc t (sortByFeeDesc ts)

/-- `TransactionPool.get_transactions_for_block(count)`: stable fee-descending
sort, slice of the first `count`, then `list.remove` of each selected
transaction (removal of the first occurrence, i.e. `List.erase`). `count` is
modelled as `ℕ` (every caller passes a nonnegative `int`). -/
def get_transactions_for_block (p : TransactionPool) (count : ℕ) :
    List Transaction × TransactionPool :=
  let sorted_txs := sortByFeeDesc p.transactions
  let selected_txs := sorted_txs.take count
  (selected_txs, { p with transactions := selected_txs.foldl List.erase p.transactions })

/-! ### `AdvancedBlockchainNode` -/

/-- `NetworkMetrics`. -/
structure NetworkMetrics where
  latency : ℚ
  bandwidth : ℚ
  packet_loss : ℚ
  uptime : ℚ
  deriving DecidableEq

/-- `NodeMetrics` (`network_io` in the source; suffixed here with its unit). -/
structure NodeMetrics where
  cpu_usage : ℚ
  memory_usage : ℚ
  disk_usage : ℚ
  network_io_mbps : ℚ
  deriving DecidableEq

/-- `AdvancedBlockchainNode`, restricted to the fields read or written by the
modelled engine operations. The presentation-only fields (`node_type`, `x`,
`y`, `protocol`, `version`, `peers`, `pending_transactions`, `mempool_size`,
`sync_status`, timestamps) are never read by them and are omitted. -/
structure AdvancedBlockchainNode where
  node_id : String
  status : String
  block_height : ℕ
  connection_count : ℤ
  network_metrics : NetworkMetrics
  node_metrics : NodeMetrics

/-- `AdvancedBlockchainNode.__init__`: the randomized initial metric draws
are passed explicitly; the status always starts as `"online"`. -/
def AdvancedBlockchainNode.init (node_id : String) (block_height : ℕ)
    (connection_count : ℤ) (nm : NetworkMetrics) (rm : NodeMetrics) :
    AdvancedBlockchainNode :=
  { node_id := node_id, status := "online", block_height := block_height,
    connection_count := connection_count, network_metrics := nm, node_metrics := rm }

/-- One tuple of random draws consumed by `update_metrics`: the four
`random.uniform` perturbations and the 10%-chance new-block coin. -/
structure MetricDraws where
  dLatency : ℚ
  dBandwidth : ℚ
  dCpu : ℚ
  dMemory : ℚ
  newBlock : Bool

/-- `AdvancedBlockchainNode.update_metrics()`, with the random draws passed
in. Each perturbed metric is clamped with `max lo (min hi value)` exactly as
in the source; `status` is untouched. -/
def update_metrics (n : AdvancedBlockchainNode) (d : MetricDraws) :
    AdvancedBlockchainNode :=
  let nm := n.network_metrics
  let rm := n.node_metrics
  { n with
    network_metrics :=
      { nm with
        latency := max 1 (min 500 (nm.latency + d.dLatency)),
        bandwidth := max (1/10) (min 200 (nm.bandwidth + d.dBandwidth)) },
    node_metrics :=
      { rm with
        cpu_usage := max 0 (min 100 (rm.cpu_usage + d.dCpu)),
        memory_usage := max 50 (min 4000 (rm.memory_usage + d.dMemory)) },
    block_height := if d.newBlock then n.block_height + 1 else n.block_height }

/-! ### `NetworkSimulator` -/

/-- State of `NetworkSimulator` (`connections` is never read and omitted). -/
structure NetworkSimulator where
  nodes : List AdvancedBlockchainNode
  network_load : ℚ
  total_bandwidth : ℚ

/-- `NetworkSimulator.__init__()`. -/
def NetworkSimulator.init : NetworkSimulator :=
  { nodes := [], network_load := 0, total_bandwidth := 1000 }

/-- `NetworkSimulator.add_node(node)`. -/
def add_node (sim : NetworkSimulator) (n : AdvancedBlockchainNode) : NetworkSimulator :=
  { sim with nodes := sim.nodes ++ [n] }

/-- List map with the element index passed to the function. -/
def mapWithIndex (f : ℕ → α → β) : ℕ → List α → List β
  | _, [] => []
  | i, a :: as => f i a :: mapWithIndex f (i + 1) as

/-- In-place update of the element at position `i` (mutation of the node
object picked by `random.choice`); out-of-range indices leave the list
unchanged (the source always picks a valid node). -/
def modifyAt (f : α → α) : ℕ → List α → List α
  | _, [] => []
  | 0, a :: as => f a :: as
  | i+1, a :: as => a :: modifyAt f i as

/-- One drawn network event of `_simulate_network_events`, with its random
choices made explicit. `node_connection`/`node_disconnection` carry the index
of the node picked by `random.choice`; `node_disconnection` carries the
outcome of the 10% coin `random.random() < 0.1`; `network_congestion` carries
the per-node perturbation draws. The events `"packet_loss"` and
`"bandwidth_fluctuation"` can be drawn but have no handler branch in the
source, so they do nothing. -/
inductive NetworkEvent where
  | node_connection (pick : ℕ)
  | node_disconnection (pick : ℕ) (coin : Bool)
  | network_congestion (dLat dLoss : ℕ → ℚ)
  | packet_loss_event
  | bandwidth_fluctuation

/-- `_simulate_node_connection` / `_simulate_node_disconnection` /
`_simulate_network_congestion`, dispatched as in `_simulate_network_events`. -/
def apply_event (sim : NetworkSimulator) : NetworkEvent → NetworkSimulator
  | .node_connection i =>
      if 2 ≤ sim.nodes.length then
        { sim with nodes := modifyAt (fun n =>
            { n with connection_count := n.connection_count + 1,
                     network_metrics := { n.network_metrics with
                       uptime := min (999/10) (n.network_metrics.uptime + 1/10) } }) i sim.nodes }
      else sim
  | .node_disconnection i coin =>
      if 1 ≤ sim.nodes.length then
        if coin then
          { sim with nodes := modifyAt (fun n =>
              { n with status := "offline",
                       connection_count := max 0 (n.connection_count - 1) }) i sim.nodes }
        else sim
      else sim
  | .network_congestion dLat dLoss =>
      { sim with nodes := mapWithIndex (fun i n =>
          { n with network_metrics := { n.network_metrics with
              latency := n.network_metrics.latency + dLat i,
              packet_loss := n.network_metrics.packet_loss + dLoss i } }) 0 sim.nodes }
  | .packet_loss_event => sim
  | .bandwidth_fluctuation => sim

/-- `NetworkSimulator.simulate_network_activity()`: update every node's
metrics, recompute the network load, then apply the drawn events in order
(the source draws 1–3 of them; the model accepts any list of draws). -/
def simulate_network_activity (sim : NetworkSimulator) (draws : ℕ → MetricDraws)
    (events : List NetworkEvent) : NetworkSimulator :=
  let nodes1 := mapWithIndex (fun i n => update_metrics n (draws i)) 0 sim.nodes
  let load := min sim.total_bandwidth (nodes1.map (fun n => n.node_metrics.network_io_mbps)).sum
  events.foldl apply_event { sim with nodes := nodes1, network_load := load }

/-- Round half to even on ℚ (Python `round` on an exactly-representable
value). -/
def pyRoundHalfEven (q : ℚ) : ℤ :=
  let f := ⌊q⌋
  let r := q - f
  if r < 1/2 then f
  else if 1/2 < r then f + 1
  else if f % 2 = 0 then f else f + 1

/-- Python `round(q, 1)`. -/
def pyRound1 (q : ℚ) : ℚ := (pyRoundHalfEven (10 * q) : ℚ) / 10

/-- The fields of the `get_network_statistics` result dict that are modelled
(`network_health` is a separate computation that can fault, see
`calculate_network_health`). -/
structure NetworkStatistics where
  total_nodes : ℕ
  online_nodes : ℕ
  network_load_percent : ℚ
  average_latency : ℚ
  average_bandwidth : ℚ
  total_connections : ℤ
  network_health : String

/-- `NetworkSimulator._calculate_network_health()`: `none` models the
`ZeroDivisionError` raised on an empty registry. The Russian label strings of
the source are transliterated. -/
def calculate_network_health (sim : NetworkSimulator) : Option String :=
  if sim.nodes.length = 0 then none
  else
    let frac : ℚ := ((sim.nodes.filter (fun n => n.status = "online")).length : ℚ) /
      (sim.nodes.length : ℚ)
    some (if 9/10 ≤ frac then "Otlichnoe"
          else if 7/10 ≤ frac then "Horoshee"
          else if 1/2 ≤ frac then "Udovletvoritelnoe"
          else "Plohoe")

/-- `NetworkSimulator.get_network_statistics()`: the averages are computed
over the online nodes only and guarded by `if online_nodes else 0`; `none`
models the `ZeroDivisionError` that `_calculate_network_health` raises on an
empty registry. -/
def get_network_statistics (sim : NetworkSimulator) : Option NetworkStatistics :=
  (calculate_network_health sim).map (fun health =>
    let online := sim.nodes.filter (fun n => n.status = "online")
    { total_nodes := sim.nodes.length,
      online_nodes := online.length,
      network_load_percent := pyRound1 (sim.network_load / sim.total_bandwidth * 100),
      average_latency :=
        if online.isEmpty then 0
        else pyRound1 ((online.map (fun n => n.network_metrics.latency)).sum / online.length),
      average_bandwidth :=
        if online.isEmpty then 0
        else pyRound1 ((online.map (fun n => n.network_metrics.bandwidth)).sum / online.length),
      total_connections := (online.map (fun n => n.connection_count)).sum,
      network_health := health })

/-! ### Concrete states used in counterexamples and witnesses -/

/-- Boolean fee-equality test used to state sort stability. -/
def feeEq (q : ℚ) : Transaction → Bool := fun u => decide (u.fee = q)

/-- The fee-0.01 transaction of the spec scenario. -/
def txA : Transaction := ⟨"tx1", "addr1", "addr2", 1, 1/100⟩

/-- The fee-0.05 transaction of the spec scenario. -/
def txB : Transaction := ⟨"tx2", "addr1", "addr2", 1, 1/20⟩

/-- The fee-0.001 transaction of the spec scenario. -/
def txC : Transaction := ⟨"tx3", "addr1", "addr2", 1, 1/1000⟩

/-- A pool holding the spec-scenario transactions with fees
[0.01, 0.05, 0.001]. -/
def demoPool : TransactionPool := ⟨[txA, txB, txC], 10000⟩

/-- The mining state reached from `MiningSimulator(1000000)` by one
`adjust_difficulty(1300)` call: difficulty 750000, target `"0"`, cursor 0. -/
def simAdjusted : MiningSimulator :=
  adjust_difficulty (MiningSimulator.init 1000000) 1300

/-- The documented clamp ranges of the four perturbed metrics. -/
def metrics_in_range (n : AdvancedBlockchainNode) : Prop :=
  1 ≤ n.network_metrics.latency ∧ n.network_metrics.latency ≤ 500 ∧
  1/10 ≤ n.network_metrics.bandwidth ∧ n.network_metrics.bandwidth ≤ 200 ∧
  0 ≤ n.node_metrics.cpu_usage ∧ n.node_metrics.cpu_usage ≤ 100 ∧
  50 ≤ n.node_metrics.memory_usage ∧ n.node_metrics.memory_usage ≤ 4000

/-- A concrete offline node used in witnesses. -/
def offNode : AdvancedBlockchainNode :=
  { node_id := "NODE_001", status := "offline", block_height := 100000,
    connection_count := 5, network_metrics := ⟨100, 50, 1, 99⟩,
    node_metrics := ⟨10, 500, 100, 5⟩ }

/-! ### Theorems -/

/-! #### Transaction pool lemmas -/

theorem insertByFeeDesc_perm (t : Transaction) (l : List Transaction) :
    (insertByFeeDesc t l).Perm (t :: l) := by
  induction l with
  | nil => exact List.Perm.refl _
  | cons u us ih =>
    unfold insertByFeeDesc
    by_cases hf : u.fee ≤ t.fee
    · rw [if_pos hf]
    · rw [if_neg hf]
      exact (ih.cons u).trans (List.Perm.swap t u us)

theorem sortByFeeDesc_perm (l : List Transaction) : (sortByFeeDesc l).Perm l := by
  induction l with
  | nil => exact List.Perm.refl _
  | cons t ts ih =>
    exact (insertByFeeDesc_perm t (sortByFeeDesc ts)).trans (ih.cons t)

theorem insertByFeeDesc_sorted (t : Transaction) (l : List Transaction)
    (h : l.Pairwise (fun a b => b.fee ≤ a.fee)) :
    (insertByFeeDesc t l).Pairwise (fun a b => b.fee ≤ a.fee) := by
  induction l with
  | nil => simp [insertByFeeDesc]
  | cons u us ih =>
    rw [List.pairwise_cons] at h
    unfold insertByFeeDesc
    by_cases hf : u.fee ≤ t.fee
    · rw [if_pos hf]
      refine List.Pairwise.cons ?_ (List.Pairwise.cons h.1 h.2)
      intro x hx
      rcases List.mem_cons.mp hx with hx | hx
      · exact hx ▸ hf
      · exact le_trans (h.1 x hx) hf
    · rw [if_neg hf]
      refine List.Pairwise.cons ?_ (ih h.2)
      intro x hx
      rcases List.mem_cons.mp ((insertByFeeDesc_perm t us).mem_iff.mp hx) with rfl | hx
      · exact le_of_lt (not_le.mp hf)
      · exact h.1 x hx

theorem sortByFeeDesc_sorted (l : List Transaction) :
    (sortByFeeDesc l).Pairwise (fun a b => b.fee ≤ a.fee) := by
  induction l with
  | nil => simp [sortByFeeDesc]
  | cons t ts ih => exact insertByFeeDesc_sorted t (sortByFeeDesc ts) ih

theorem filter_insertByFeeDesc_of_ne (t : Transaction) (l : List Transaction) (q : ℚ)
    (h : ¬ t.fee = q) :
    (insertByFeeDesc t l).filter (feeEq q) = l.filter (feeEq q) := by
  have hft : feeEq q t = false := by simp [feeEq, h]
  induction l with
  | nil => simp [insertByFeeDesc, hft]
  | cons u us ih =>
    unfold insertByFeeDesc
    by_cases hf : u.fee ≤ t.fee
    · rw [if_pos hf, List.filter_cons, hft]
      simp
    · rw [if_neg hf, List.filter_cons, ih, List.filter_cons]

theorem filter_insertByFeeDesc_of_eq (t : Transaction) (l : List Transaction) (q : ℚ)
    (h : t.fee = q) :
    (insertByFeeDesc t l).filter (feeEq q) = t :: l.filter (feeEq q) := by
  have hft : feeEq q t = true := by simp [feeEq, h]
  induction l with
  | nil => simp [insertByFeeDesc, hft]
  | cons u us ih =>
    unfold insertByFeeDesc
    by_cases hf : u.fee ≤ t.fee
    · rw [if_pos hf, List.filter_cons, hft]
      simp
    · rw [if_neg hf]
      have hu : feeEq q u = false := by
        simp only [feeEq, decide_eq_false_iff_not]
        intro hq
        exact hf (le_of_eq (hq.trans h.symm))
      rw [List.filter_cons, hu, List.filter_cons, hu]
      simp only [Bool.false_eq_true, if_false]
      exact ih

theorem sortByFeeDesc_stable (l : List Transaction) (q : ℚ) :
    (sortByFeeDesc l).filter (feeEq q) = l.filter (feeEq q) := by
  induction l with
  | nil => rfl
  | cons t ts ih =>
    show (insertByFeeDesc t (sortByFeeDesc ts)).filter (feeEq q) = _
    by_cases h : t.fee = q
    · rw [filter_insertByFeeDesc_of_eq t _ q h, ih, List.filter_cons,
        if_pos (by simp [feeEq, h])]
    · rw [filter_insertByFeeDesc_of_ne t _ q h, ih, List.filter_cons,
        if_neg (by simp [feeEq, h])]

theorem length_diff_of_subperm :
    ∀ (sel pool : List Transaction), sel.Subperm pool →
      (pool.diff sel).length = pool.length - sel.length := by
  intro sel
  induction sel with
  | nil => intro pool _; simp [List.diff_nil]
  | cons a sel ih =>
    intro pool h
    have ha : a ∈ pool := h.subset (List.mem_cons_self a sel)
    have hperm : pool.Perm (a :: pool.erase a) := List.perm_cons_erase ha
    have h2 : sel.Subperm (pool.erase a) :=
      (List.subperm_cons a).mp (h.trans hperm.subperm)
    rw [List.diff_cons, ih _ h2, List.length_erase_of_mem ha, List.length_cons]
    omega

theorem not_mem_diff_of_mem_nodup :
    ∀ (sel pool : List Transaction), pool.Nodup → sel.Subperm pool →
      ∀ t ∈ sel, t ∉ pool.diff sel := by
  intro sel
  induction sel with
  | nil => intro pool _ _ t ht; cases ht
  | cons a sel ih =>
    intro pool hnd h t ht
    have ha : a ∈ pool := h.subset (List.mem_cons_self a sel)
    have hperm : pool.Perm (a :: pool.erase a) := List.perm_cons_erase ha
    have h2 : sel.Subperm (pool.erase a) :=
      (List.subperm_cons a).mp (h.trans hperm.subperm)
    rw [List.diff_cons]
    rcases List.mem_cons.mp ht with rfl | ht
    · intro hmem
      exact hnd.not_mem_erase (List.diff_subset _ _ hmem)
    · exact ih (pool.erase a) (hnd.erase a) h2 t ht

/-- C1: `selectForBlock(n)` returns the pool's transactions stably sorted by
fee in non-increasing order (ties broken by insertion order), of length
`min n (pool size)`; each returned transaction is removed from the pool, and
the pool size decreases by exactly `min n (previous size)`. Stability is
stated as: for every fee value `q`, the selected transactions of fee `q` form
a prefix of the pool's insertion-ordered transactions of fee `q`. The no-dup
hypothesis models Python object identity (the same transaction object is in
the pool at most once). -/
theorem get_transactions_for_block_spec (p : TransactionPool) (count : ℕ)
    (hnd : p.transactions.Nodup) :
    ((get_transactions_for_block p count).1.Pairwise (fun a b => b.fee ≤ a.fee)) ∧
    ((get_transactions_for_block p count).1.Subperm p.transactions) ∧
    (∀ q : ℚ, (get_transactions_for_block p count).1.filter (feeEq q) <+:
              p.transactions.filter (feeEq q)) ∧
    ((get_transactions_for_block p count).1.length = min count p.transactions.length) ∧
    ((get_transactions_for_block p count).2.transactions.length =
       p.transactions.length - min count p.transactions.length) ∧
    (∀ t ∈ (get_transactions_for_block p count).1,
       t ∉ (get_transactions_for_block p count).2.transactions) ∧
    ((get_transactions_for_block p count).2.max_pool_size = p.max_pool_size) := by
  have hsel1 : (get_transactions_for_block p count).1 =
      (sortByFeeDesc p.transactions).take count := rfl
  have hsel2 : (get_transactions_for_block p count).2.transactions =
      p.transactions.diff ((sortByFeeDesc p.transactions).take count) := by
    show ((sortByFeeDesc p.transactions).take count).foldl List.erase p.transactions = _
    rw [List.diff_eq_foldl]
  have hsub : ((sortByFeeDesc p.transactions).take count).Subperm p.transactions :=
    ((List.take_sublist count _).subperm).trans (sortByFeeDesc_perm p.transactions).subperm
  have hlen : ((sortByFeeDesc p.transactions).take count).length =
      min count p.transactions.length := by
    rw [List.length_take, (sortByFeeDesc_perm p.transactions).length_eq]
  refine ⟨?_, ?_, ?_, ?_, ?_, ?_, rfl⟩
  · rw [hsel1]
    exact (sortByFeeDesc_sorted p.transactions).sublist (List.take_sublist count _)
  · rw [hsel1]; exact hsub
  · intro q
    rw [hsel1, ← sortByFeeDesc_stable p.transactions q]
    have htp : (sortByFeeDesc p.transactions).take count <+: sortByFeeDesc p.transactions :=
      ⟨(sortByFeeDesc p.transactions).drop count, List.take_append_drop count _⟩
    exact htp.filter (feeEq q)
  · rw [hsel1]; exact hlen
  · rw [hsel2, length_diff_of_subperm _ _ hsub, hlen]
  · intro t ht
    rw [hsel2]
    exact not_mem_diff_of_mem_nodup _ _ hnd hsub t (hsel1 ▸ ht)

/-- Witness for C1 at the spec scenario (fees [0.01, 0.05, 0.001], count 2). -/
theorem get_transactions_for_block_spec_witness :
    ((get_transactions_for_block demoPool 2).1.length = min 2 demoPool.transactions.length) ∧
    (∀ t ∈ (get_transactions_for_block demoPool 2).1,
       t ∉ (get_transactions_for_block demoPool 2).2.transactions) :=
  ⟨(get_transactions_for_block_spec demoPool 2 (by decide)).2.2.2.1,
   (get_transactions_for_block_spec demoPool 2 (by decide)).2.2.2.2.2.1⟩

/-- C2: `add(tx)` appends `tx` and returns true exactly when the pool size
before the call is strictly less than `maxPoolSize` (10000 for a pool built
by the constructor); on a full pool it returns false and leaves the pool
unchanged (a boolean signal — the Lean model is total, mirroring that no
exception is raised). -/
theorem add_transaction_spec (p : TransactionPool) (t : Transaction) :
    ((add_transaction p t).1 = true ↔ p.transactions.length < p.max_pool_size) ∧
    ((add_transaction p t).1 = true →
       (add_transaction p t).2.transactions = p.transactions ++ [t] ∧
       (add_transaction p t).2.max_pool_size = p.max_pool_size) ∧
    ((add_transaction p t).1 = false → (add_transaction p t).2 = p) ∧
    TransactionPool.init.max_pool_size = 10000 := by
  unfold add_transaction
  by_cases h : p.transactions.length < p.max_pool_size
  · rw [if_pos h]
    refine ⟨by simpa using h, fun _ => ⟨rfl, rfl⟩, ?_, rfl⟩
    intro hfalse
    simp at hfalse
  · rw [if_neg h]
    refine ⟨by simpa using h, ?_, fun _ => rfl, rfl⟩
    intro htrue
    simp at htrue

/-- Witness for C2 on a full pool: a pool of capacity 0 rejects and is
unchanged. -/
theorem add_transaction_spec_witness :
    ((add_transaction (TransactionPool.mk [] 0) txA).1 = false →
       (add_transaction (TransactionPool.mk [] 0) txA).2 = TransactionPool.mk [] 0) ∧
    ((add_transaction (TransactionPool.mk [] 0) txA).1 = false) ∧
    ((add_transaction TransactionPool.init txA).1 = true →
       (add_transaction TransactionPool.init txA).2.transactions = [txA]) :=
  ⟨(add_transaction_spec (TransactionPool.mk [] 0) txA).2.2.1,
   by decide,
   fun h => by
     have := ((add_transaction_spec TransactionPool.init txA).2.1 h).1
     simpa using this⟩

/-! #### Mining loop lemmas -/

theorem mineLoop_zero (data target : List Nat) (nonce : ℕ) :
    mineLoop data target 0 nonce = (none, nonce) := rfl

theorem mineLoop_succ (data target : List Nat) (fuel nonce : ℕ) :
    mineLoop data target (fuel + 1) nonce =
      if target.isPrefixOf (sha256hex (data ++ asciiDigits nonce))
      then (some (sha256hex (data ++ asciiDigits nonce), nonce), nonce)
      else mineLoop data target fuel (nonce + 1) := rfl

/-- Soundness of the search loop: a successful result is the first matching
nonce at or after the start cursor and becomes the new cursor; an absent
result means no nonce in the searched window matches, and the cursor ends
just past the window. -/
theorem mineLoop_sound (data target : List Nat) :
    ∀ fuel start : ℕ,
      (∀ h n, (mineLoop data target fuel start).1 = some (h, n) →
         start ≤ n ∧ n < start + fuel ∧
         h = sha256hex (data ++ asciiDigits n) ∧
         target.isPrefixOf h = true ∧
         (∀ m, start ≤ m → m < n →
            target.isPrefixOf (sha256hex (data ++ asciiDigits m)) = false) ∧
         (mineLoop data target fuel start).2 = n) ∧
      ((mineLoop data target fuel start).1 = none →
         (∀ m, start ≤ m → m < start + fuel →
            target.isPrefixOf (sha256hex (data ++ asciiDigits m)) = false) ∧
         (mineLoop data target fuel start).2 = start + fuel) := by
  intro fuel
  induction fuel with
  | zero =>
    intro start
    constructor
    · intro h n hsome
      rw [mineLoop_zero] at hsome
      cases hsome
    · intro _
      exact ⟨fun m hm1 hm2 => by omega, by simp [mineLoop_zero]⟩
  | succ fuel ih =>
    intro start
    by_cases hp : target.isPrefixOf (sha256hex (data ++ asciiDigits start)) = true
    · have heq : mineLoop data target (fuel + 1) start =
          (some (sha256hex (data ++ asciiDigits start), start), start) := by
        rw [mineLoop_succ, if_pos hp]
      constructor
      · intro h n hsome
        rw [heq] at hsome
        simp only [Option.some.injEq, Prod.mk.injEq] at hsome
        obtain ⟨rfl, rfl⟩ := hsome
        exact ⟨le_refl _, by omega, rfl, hp, fun m hm1 hm2 => by omega, by rw [heq]⟩
      · intro hnone
        rw [heq] at hnone
        cases hnone
    · have hp' : target.isPrefixOf (sha256hex (data ++ asciiDigits start)) = false := by
        revert hp
        cases target.isPrefixOf (sha256hex (data ++ asciiDigits start)) <;> simp
      have heq : mineLoop data target (fuel + 1) start =
          mineLoop data target fuel (start + 1) := by
        rw [mineLoop_succ, if_neg (by simp [hp'])]
      obtain ⟨ihs, ihn⟩ := ih (start + 1)
      constructor
      · intro h n hsome
        rw [heq] at hsome
        obtain ⟨h1, h2, h3, h4, h5, h6⟩ := ihs h n hsome
        refine ⟨by omega, by omega, h3, h4, ?_, by rw [heq]; exact h6⟩
        intro m hm1 hm2
        rcases eq_or_lt_of_le hm1 with rfl | hlt
        · exact hp'
        · exact h5 m (by omega) hm2
      · intro hnone
        rw [heq] at hnone
        obtain ⟨h1, h2⟩ := ihn hnone
        refine ⟨?_, by rw [heq, h2]; omega⟩
        intro m hm1 hm2
        rcases eq_or_lt_of_le hm1 with rfl | hlt
        · exact hp'
        · exact h1 m (by omega) (by omega)

theorem mine_block_fst (s : MiningSimulator) (data : List Nat) :
    (mine_block s data).1 =
      (mineLoop data s.target_hash (1000000 - s.current_nonce) s.current_nonce).1 := rfl

theorem mine_block_cursor (s : MiningSimulator) (data : List Nat) :
    (mine_block s data).2.current_nonce =
      (mineLoop data s.target_hash (1000000 - s.current_nonce) s.current_nonce).2 := rfl

theorem mine_block_target (s : MiningSimulator) (data : List Nat) :
    (mine_block s data).2.target_hash = s.target_hash := rfl

theorem mine_block_difficulty (s : MiningSimulator) (data : List Nat) :
    (mine_block s data).2.difficulty = s.difficulty := rfl

/-- What one `mine_block` call does, in terms of the persisted cursor. -/
theorem mine_block_sound (s : MiningSimulator) (data : List Nat) :
    (∀ h n, (mine_block s data).1 = some (h, n) →
       s.current_nonce ≤ n ∧ n < 1000000 ∧
       h = sha256hex (data ++ asciiDigits n) ∧
       s.target_hash.isPrefixOf h = true ∧
       (∀ m, s.current_nonce ≤ m → m < n →
          s.target_hash.isPrefixOf (sha256hex (data ++ asciiDigits m)) = false) ∧
       (mine_block s data).2.current_nonce = n) ∧
    ((mine_block s data).1 = none →
       (∀ m, s.current_nonce ≤ m → m < 1000000 →
          s.target_hash.isPrefixOf (sha256hex (data ++ asciiDigits m)) = false) ∧
       (mine_block s data).2.current_nonce = max s.current_nonce 1000000) ∧
    ((mine_block s data).2.target_hash = s.target_hash ∧
     (mine_block s data).2.difficulty = s.difficulty) := by
  obtain ⟨ls, ln⟩ :=
    mineLoop_sound data s.target_hash (1000000 - s.current_nonce) s.current_nonce
  refine ⟨?_, ?_, rfl, rfl⟩
  · intro h n hsome
    rw [mine_block_fst] at hsome
    have hfuel : 1000000 - s.current_nonce ≠ 0 := by
      intro h0
      rw [h0, mineLoop_zero] at hsome
      cases hsome
    obtain ⟨h1, h2, h3, h4, h5, h6⟩ := ls h n hsome
    exact ⟨h1, by omega, h3, h4, h5, by rw [mine_block_cursor]; exact h6⟩
  · intro hnone
    rw [mine_block_fst] at hnone
    obtain ⟨h1, h2⟩ := ln hnone
    refine ⟨fun m hm1 hm2 => ?_, by rw [mine_block_cursor, h2]; omega⟩
    by_cases hc : s.current_nonce ≤ 1000000
    · exact h1 m hm1 (by omega)
    · omega

/-- C3 (amended): each `mine_block` call performs a bounded linear search
over nonce values from the *persisted* cursor `current_nonce` (which is not
reset per attempt — it is set to 0 only at construction) up to 999999
inclusive (the bound 1,000,000 is exclusive); it succeeds at the first such
nonce whose SHA-256 hex digest starts with the target, leaving the cursor on
that nonce, and returns an absent result if the window is exhausted, leaving
the cursor at 1,000,000 (or unchanged when already past it). -/
theorem mine_block_spec (s : MiningSimulator) (data : List Nat) :
    (∀ h n, (mine_block s data).1 = some (h, n) →
       s.current_nonce ≤ n ∧ n < 1000000 ∧
       h = sha256hex (data ++ asciiDigits n) ∧
       s.target_hash.isPrefixOf h = true ∧
       (∀ m, s.current_nonce ≤ m → m < n →
          s.target_hash.isPrefixOf (sha256hex (data ++ asciiDigits m)) = false) ∧
       (mine_block s data).2.current_nonce = n) ∧
    ((mine_block s data).1 = none →
       (∀ m, s.current_nonce ≤ m → m < 1000000 →
          s.target_hash.isPrefixOf (sha256hex (data ++ asciiDigits m)) = false) ∧
       (mine_block s data).2.current_nonce = max s.current_nonce 1000000) ∧
    ((mine_block s data).2.target_hash = s.target_hash ∧
     (mine_block s data).2.difficulty = s.difficulty) :=
  mine_block_sound s data

/-- Witness for C3 (amended) at a state whose cursor is already exhausted:
the call returns no result and leaves the cursor at 1,000,000. -/
theorem mine_block_spec_witness :
    (mine_block (⟨750000, 1000000, strBytes "0"⟩ : MiningSimulator)
        (strBytes "data")).2.current_nonce = max 1000000 1000000 :=
  ((mine_block_spec (⟨750000, 1000000, strBytes "0"⟩ : MiningSimulator)
      (strBytes "data")).2.1 rfl).2

set_option maxRecDepth 100000 in
set_option maxHeartbeats 4000000 in
/-- C3 counterexample: after `MiningSimulator(1000000)`,
`adjust_difficulty(1300)` (target becomes `"0"`, cursor 0) and a first
`mine_block("data")` call (which succeeds at nonce 4 and leaves the cursor
there), a second call `mine_block("v")` returns nonce 11 — even though
SHA-256(`"v0"`) already starts with `"0"`: the search is *not* restarted at
nonce 0 for the new attempt, so it does not succeed at the first matching
nonce, contradicting the claim's reset-per-attempt bounded search. -/
theorem mine_block_cursor_not_reset_counterexample :
    ((mine_block simAdjusted (strBytes "data")).1 =
       some (strBytes "02c6edc2ad3e1f2f9a9c8fea18c0702c4d2d753440315037bc7f84ea4bba2542", 4)) ∧
    ((mine_block (mine_block simAdjusted (strBytes "data")).2 (strBytes "v")).1 =
       some (strBytes "0eee3a0bb608847ca1ac05a7689e07f625d04045c0146025136a545ec9ccbc09", 11)) ∧
    (simAdjusted.target_hash.isPrefixOf (sha256hex (strBytes "v" ++ asciiDigits 0)) = true) := by
  refine ⟨by with_unfolding_all decide, by with_unfolding_all decide,
    by with_unfolding_all decide⟩

/-- C4: calling `mine_block` twice on the same engine with an identical
payload (the target prefix is untouched by mining, hence identical) yields
identical results — in particular the identical (hash, nonce) pair on
success. This holds because a successful search leaves the cursor parked on
the found nonce, and a failed search leaves it exhausted. -/
theorem mine_block_deterministic (s : MiningSimulator) (data : List Nat) :
    (mine_block (mine_block s data).2 data).1 = (mine_block s data).1 := by
  obtain ⟨ls, ln, hpres⟩ := mine_block_sound s data
  cases hr : (mine_block s data).1 with
  | some hn =>
    obtain ⟨h, n⟩ := hn
    obtain ⟨h1, h2, h3, h4, h5, h6⟩ := ls h n hr
    rw [mine_block_fst, mine_block_target, h6]
    have hk : 1000000 - n = (1000000 - n - 1) + 1 := by omega
    rw [hk, mineLoop_succ, if_pos (by rw [← h3]; exact h4)]
    rw [← h3]
  | none =>
    obtain ⟨h1, h2⟩ := ln hr
    rw [mine_block_fst, mine_block_target, h2]
    have hz : 1000000 - max s.current_nonce 1000000 = 0 := by omega
    rw [hz, mineLoop_zero]

/-! #### Difficulty controller lemmas -/

theorem pyInt_eq_floor (q : ℚ) (h : 0 ≤ q) : pyInt q = ⌊q⌋ := by
  unfold pyInt
  rw [Rat.floor_def]
  exact Int.tdiv_eq_ediv (Rat.num_nonneg.mpr h) (Int.natCast_nonneg q.den)

theorem adjust_difficulty_def (s : MiningSimulator) (t : ℚ) :
    (adjust_difficulty s t).difficulty =
      (if t < 600 * (1/2) then pyInt ((s.difficulty : ℚ) * (3/2))
       else if t > 600 * 2 then pyInt ((s.difficulty : ℚ) * (3/4))
       else s.difficulty) := rfl

theorem adjust_target_eq (s : MiningSimulator) (t : ℚ) :
    (adjust_difficulty s t).target_hash =
      List.replicate ((adjust_difficulty s t).difficulty.fdiv 1000000 + 1).toNat 48 := rfl

/-- C5 counterexample: at difficulty 1 with observed time 100 (< 300), the
difficulty does not strictly increase — `int(1 * 1.5) = 1` leaves it
unchanged, contradicting the claim's "with t = 100 difficulty strictly
increases" for every positive integer difficulty. -/
theorem adjust_difficulty_not_strict_counterexample :
    (0 : ℤ) < (MiningSimulator.mk 1 0 (strBytes "0")).difficulty ∧
    (adjust_difficulty (MiningSimulator.mk 1 0 (strBytes "0")) 100).difficulty =
      (MiningSimulator.mk 1 0 (strBytes "0")).difficulty := by
  with_unfolding_all decide

/-- C5 (amended): for every positive difficulty the controller multiplies by
1.5 (truncated toward zero, here `⌊·⌋` since the operand is nonnegative) when
t < 300, by 0.75 when t > 1200, and leaves it unchanged for 300 ≤ t ≤ 1200;
with t = 100 the difficulty strictly increases *for every difficulty ≥ 2*
(difficulty 1 stays 1, the truncation of 1.5); with t = 1300 it strictly
decreases; with t = 600 it is unchanged. -/
theorem adjust_difficulty_spec (s : MiningSimulator) (t : ℚ) (hd : 0 < s.difficulty) :
    (t < 300 → (adjust_difficulty s t).difficulty = ⌊(s.difficulty : ℚ) * (3/2)⌋) ∧
    (1200 < t → (adjust_difficulty s t).difficulty = ⌊(s.difficulty : ℚ) * (3/4)⌋) ∧
    (300 ≤ t → t ≤ 1200 → (adjust_difficulty s t).difficulty = s.difficulty) ∧
    (2 ≤ s.difficulty → s.difficulty < (adjust_difficulty s 100).difficulty) ∧
    (s.difficulty = 1 → (adjust_difficulty s 100).difficulty = 1) ∧
    ((adjust_difficulty s 1300).difficulty < s.difficulty) ∧
    ((adjust_difficulty s 600).difficulty = s.difficulty) := by
  have hcast : (0 : ℚ) < (s.difficulty : ℚ) := by exact_mod_cast hd
  have e1 : (600 : ℚ) * (1/2) = 300 := by norm_num
  have e2 : (600 : ℚ) * 2 = 1200 := by norm_num
  have hgrow : ∀ u : ℚ, u < 300 →
      (adjust_difficulty s u).difficulty = ⌊(s.difficulty : ℚ) * (3/2)⌋ := by
    intro u hu
    rw [adjust_difficulty_def, e1, if_pos hu]
    exact pyInt_eq_floor _ (by positivity)
  have hshrink : ∀ u : ℚ, 1200 < u →
      (adjust_difficulty s u).difficulty = ⌊(s.difficulty : ℚ) * (3/4)⌋ := by
    intro u hu
    rw [adjust_difficulty_def, e1, e2, if_neg (by linarith), if_pos hu]
    exact pyInt_eq_floor _ (by positivity)
  have hkeep : ∀ u : ℚ, 300 ≤ u → u ≤ 1200 →
      (adjust_difficulty s u).difficulty = s.difficulty := by
    intro u hu1 hu2
    rw [adjust_difficulty_def, e1, e2, if_neg (by linarith), if_neg (by linarith)]
  refine ⟨hgrow t, hshrink t, hkeep t, ?_, ?_, ?_, hkeep 600 (by norm_num) (by norm_num)⟩
  · intro h2
    rw [hgrow 100 (by norm_num)]
    have h2q : (2 : ℚ) ≤ (s.difficulty : ℚ) := by exact_mod_cast h2
    have := Int.le_floor.mpr (show ((s.difficulty + 1 : ℤ) : ℚ) ≤ (s.difficulty : ℚ) * (3/2) by
      push_cast
      linarith)
    omega
  · intro h1
    rw [hgrow 100 (by norm_num), h1]
    rw [show ((1 : ℤ) : ℚ) * (3/2) = 3/2 by norm_num]
    rw [Int.floor_eq_iff]
    constructor <;> norm_num
  · rw [hshrink 1300 (by norm_num)]
    have := Int.floor_lt.mpr (show (s.difficulty : ℚ) * (3/4) < ((s.difficulty : ℤ) : ℚ) by
      linarith)
    omega

/-- Witness for C5 (amended) at the default engine and t = 1300. -/
theorem adjust_difficulty_spec_witness :
    (adjust_difficulty (MiningSimulator.init 1000000) 1300).difficulty <
      (MiningSimulator.init 1000000).difficulty :=
  (adjust_difficulty_spec (MiningSimulator.init 1000000) 1300 (by decide)).2.2.2.2.2.1

/-- C6 counterexample: from difficulty 1 (positive) with observed time 1300,
the adjusted difficulty is `int(1 * 0.75) = 0`, which is not a positive
integer. -/
theorem adjust_difficulty_zero_counterexample :
    (0 : ℤ) < (MiningSimulator.mk 1 0 (strBytes "0")).difficulty ∧
    (adjust_difficulty (MiningSimulator.mk 1 0 (strBytes "0")) 1300).difficulty = 0 := by
  with_unfolding_all decide

/-- C6 (amended): for every positive starting difficulty the adjusted
difficulty is a *nonnegative* integer; it is positive whenever the starting
difficulty is at least 2 or the shrink branch is not taken (t ≤ 1200) — only
difficulty 1 with t > 1200 collapses to 0. -/
theorem adjust_difficulty_positivity (s : MiningSimulator) (t : ℚ) (hd : 0 < s.difficulty) :
    0 ≤ (adjust_difficulty s t).difficulty ∧
    ((2 ≤ s.difficulty ∨ t ≤ 1200) → 0 < (adjust_difficulty s t).difficulty) := by
  have hcast : (0 : ℚ) < (s.difficulty : ℚ) := by exact_mod_cast hd
  have h1q : (1 : ℚ) ≤ (s.difficulty : ℚ) := by exact_mod_cast hd
  have e1 : (600 : ℚ) * (1/2) = 300 := by norm_num
  have e2 : (600 : ℚ) * 2 = 1200 := by norm_num
  by_cases hb1 : t < 300
  · have hval : (adjust_difficulty s t).difficulty = ⌊(s.difficulty : ℚ) * (3/2)⌋ := by
      rw [adjust_difficulty_def, e1, if_pos hb1]
      exact pyInt_eq_floor _ (by positivity)
    have hpos : (1 : ℤ) ≤ ⌊(s.difficulty : ℚ) * (3/2)⌋ :=
      Int.le_floor.mpr (by push_cast; linarith)
    rw [hval]
    exact ⟨by omega, fun _ => by omega⟩
  · by_cases hb2 : 1200 < t
    · have hval : (adjust_difficulty s t).difficulty = ⌊(s.difficulty : ℚ) * (3/4)⌋ := by
        rw [adjust_difficulty_def, e1, e2, if_neg hb1, if_pos hb2]
        exact pyInt_eq_floor _ (by positivity)
      have hnn : (0 : ℤ) ≤ ⌊(s.difficulty : ℚ) * (3/4)⌋ :=
        Int.le_floor.mpr (by push_cast; linarith)
      rw [hval]
      refine ⟨by omega, ?_⟩
      rintro (h2 | hle)
      · have h2q : (2 : ℚ) ≤ (s.difficulty : ℚ) := by exact_mod_cast h2
        have hpos : (1 : ℤ) ≤ ⌊(s.difficulty : ℚ) * (3/4)⌋ :=
          Int.le_floor.mpr (by push_cast; linarith)
        omega
      · linarith
    · have hval : (adjust_difficulty s t).difficulty = s.difficulty := by
        rw [adjust_difficulty_def, e1, e2, if_neg hb1, if_neg hb2]
      rw [hval]
      exact ⟨hd.le, fun _ => hd⟩

/-- Witness for C6 (amended) at the default engine and t = 1300. -/
theorem adjust_difficulty_positivity_witness :
    0 ≤ (adjust_difficulty (MiningSimulator.init 1000000) 1300).difficulty ∧
    0 < (adjust_difficulty (MiningSimulator.init 1000000) 1300).difficulty :=
  ⟨(adjust_difficulty_positivity (MiningSimulator.init 1000000) 1300 (by decide)).1,
   (adjust_difficulty_positivity (MiningSimulator.init 1000000) 1300 (by decide)).2
     (Or.inl (by decide))⟩

/-- C7 counterexample: a freshly constructed engine with difficulty
999999 (≤ 999999) has target prefix `"0000"` of length 4, not the empty
string — the constructor sets `"0" * 4` regardless of difficulty. -/
theorem init_target_length_counterexample :
    (MiningSimulator.init 999999).difficulty ≤ 999999 ∧
    (MiningSimulator.init 999999).target_hash.length = 4 := by decide

set_option maxRecDepth 100000 in
set_option maxHeartbeats 4000000 in
/-- C7 (amended): the constructor always sets the target prefix `"0000"`
(length 4); once `adjust_difficulty` recomputes it, a difficulty in
[0, 999999] yields the target `"0"` of length 1 — never the empty string
(the recomputed length is `difficulty // 1000000 + 1 ≥ 1`); and
`mine_block("payload")` on the recomputed single-zero target (difficulty
750000, fresh cursor) succeeds at nonce 36 — the first nonce whose digest
starts with `"0"` — not at nonce 0 (SHA-256 of `"payload0"` starts with
`"f"`). -/
theorem target_hash_after_adjust_spec :
    (∀ d : ℤ, (MiningSimulator.init d).target_hash = strBytes "0000") ∧
    (∀ (s : MiningSimulator) (t : ℚ), 0 ≤ (adjust_difficulty s t).difficulty →
       (adjust_difficulty s t).difficulty ≤ 999999 →
       (adjust_difficulty s t).target_hash = strBytes "0") ∧
    ((mine_block simAdjusted (strBytes "payload")).1 =
       some (strBytes "0c6e73a1306bc186a169738fa3142cea2f904e961cdde7131cf2a531e19d1a21", 36)) ∧
    ((mine_block simAdjusted (strBytes "payload")).2.current_nonce = 36) := by
  refine ⟨fun d => (by decide : List.replicate 4 48 = strBytes "0000"), ?_, ?_, ?_⟩
  · intro s t h0 h1
    rw [adjust_target_eq, Int.fdiv_eq_ediv _ (by norm_num),
      Int.ediv_eq_zero_of_lt h0 (by omega)]
    decide
  · with_unfolding_all decide
  · with_unfolding_all decide

/-- Witness for C7 (amended): the engine adjusted from the default difficulty
(750000 ∈ [0, 999999]) indeed carries the single-character target `"0"`. -/
theorem target_hash_after_adjust_spec_witness :
    (adjust_difficulty (MiningSimulator.init 1000000) 1300).target_hash = strBytes "0" :=
  target_hash_after_adjust_spec.2.1 (MiningSimulator.init 1000000) 1300
    (by with_unfolding_all decide) (by with_unfolding_all decide)

/-! #### Metric model -/

/-- C8: for every node, after any `update_metrics` call (with any random
draws, from any starting values) — and hence after each call of any
sequence of calls — `latency ∈ [1,500]`, `bandwidth ∈ [0.1,200]`,
`cpu ∈ [0,100]` and `memory ∈ [50,4000]`, each clamped after its
perturbation. -/
theorem update_metrics_bounds :
    (∀ (n : AdvancedBlockchainNode) (d : MetricDraws),
       metrics_in_range (update_metrics n d)) ∧
    (∀ (ds : List MetricDraws) (n : AdvancedBlockchainNode), ds ≠ [] →
       metrics_in_range (ds.foldl update_metrics n)) := by
  have step : ∀ (n : AdvancedBlockchainNode) (d : MetricDraws),
      metrics_in_range (update_metrics n d) := by
    intro n d
    unfold metrics_in_range update_metrics
    refine ⟨le_max_left _ _, max_le (by norm_num) (min_le_left _ _),
      le_max_left _ _, max_le (by norm_num) (min_le_left _ _),
      le_max_left _ _, max_le (by norm_num) (min_le_left _ _),
      le_max_left _ _, max_le (by norm_num) (min_le_left _ _)⟩
  refine ⟨step, ?_⟩
  intro ds
  induction ds with
  | nil => intro n h; exact absurd rfl h
  | cons d ds ih =>
    intro n _
    by_cases hds : ds = []
    · subst hds; exact step n d
    · exact ih (update_metrics n d) hds

/-- Witness for C8 after one call on a concrete node. -/
theorem update_metrics_bounds_witness :
    metrics_in_range ([(⟨1, 2, 3, 4, true⟩ : MetricDraws)].foldl update_metrics offNode) :=
  update_metrics_bounds.2 [⟨1, 2, 3, 4, true⟩] offNode (by simp)

/-! #### Network statistics -/

theorem get_network_statistics_avg_lat (sim : NetworkSimulator) (st : NetworkStatistics)
    (h : get_network_statistics sim = some st) :
    st.average_latency =
      (if (sim.nodes.filter (fun n => n.status = "online")).isEmpty then 0
       else pyRound1 (((sim.nodes.filter (fun n => n.status = "online")).map
           (fun n => n.network_metrics.latency)).sum /
         ((sim.nodes.filter (fun n => n.status = "online")).length : ℚ))) := by
  unfold get_network_statistics at h
  rcases Option.map_eq_some'.mp h with ⟨lbl, hlbl, rfl⟩
  rfl

theorem get_network_statistics_avg_bw (sim : NetworkSimulator) (st : NetworkStatistics)
    (h : get_network_statistics sim = some st) :
    st.average_bandwidth =
      (if (sim.nodes.filter (fun n => n.status = "online")).isEmpty then 0
       else pyRound1 (((sim.nodes.filter (fun n => n.status = "online")).map
           (fun n => n.network_metrics.bandwidth)).sum /
         ((sim.nodes.filter (fun n => n.status = "online")).length : ℚ))) := by
  unfold get_network_statistics at h
  rcases Option.map_eq_some'.mp h with ⟨lbl, hlbl, rfl⟩
  rfl

/-- C9: in `get_network_statistics`, the latency and bandwidth averages
depend only on the sublist of online nodes (they are computed over online
nodes only), and on a non-empty registry with no online node the call
returns a result (no fault) whose two averages are 0. -/
theorem get_network_statistics_averages :
    (∀ (sim₁ sim₂ : NetworkSimulator) (st₁ st₂ : NetworkStatistics),
       get_network_statistics sim₁ = some st₁ →
       get_network_statistics sim₂ = some st₂ →
       sim₁.nodes.filter (fun n => n.status = "online") =
         sim₂.nodes.filter (fun n => n.status = "online") →
       st₁.average_latency = st₂.average_latency ∧
       st₁.average_bandwidth = st₂.average_bandwidth) ∧
    (∀ sim : NetworkSimulator, sim.nodes ≠ [] →
       (∀ n ∈ sim.nodes, ¬ n.status = "online") →
       ∃ st, get_network_statistics sim = some st ∧
         st.average_latency = 0 ∧ st.average_bandwidth = 0) := by
  constructor
  · intro s1 s2 t1 t2 h1 h2 hfil
    constructor
    · rw [get_network_statistics_avg_lat s1 t1 h1, get_network_statistics_avg_lat s2 t2 h2,
        hfil]
    · rw [get_network_statistics_avg_bw s1 t1 h1, get_network_statistics_avg_bw s2 t2 h2,
        hfil]
  · intro sim hne hoff
    have hfil : sim.nodes.filter (fun n => n.status = "online") = [] :=
      List.filter_eq_nil_iff.mpr (fun a ha => by simpa using hoff a ha)
    have hlen : ¬ sim.nodes.length = 0 := by
      intro h0
      exact hne (List.length_eq_zero.mp h0)
    have hh : (calculate_network_health sim).isSome = true := by
      unfold calculate_network_health
      rw [if_neg hlen]
      rfl
    rcases Option.isSome_iff_exists.mp hh with ⟨lbl, hlbl⟩
    have hs2 : (get_network_statistics sim).isSome = true := by
      unfold get_network_statistics
      rw [hlbl]
      rfl
    have hsome : get_network_statistics sim =
        some ((get_network_statistics sim).get hs2) := (Option.some_get hs2).symm
    refine ⟨(get_network_statistics sim).get hs2, hsome, ?_, ?_⟩
    · rw [get_network_statistics_avg_lat sim _ hsome, hfil]
      rfl
    · rw [get_network_statistics_avg_bw sim _ hsome, hfil]
      rfl

/-- Witness for C9 on a one-node registry whose only node is offline. -/
theorem get_network_statistics_averages_witness :
    ∃ st, get_network_statistics ⟨[offNode], 0, 1000⟩ = some st ∧
      st.average_latency = 0 ∧ st.average_bandwidth = 0 :=
  get_network_statistics_averages.2 ⟨[offNode], 0, 1000⟩ (by simp)
    (fun n hn => by
      rcases List.mem_singleton.mp hn with rfl
      decide)

/-! #### Status transitions -/

theorem mapWithIndex_get? (f : ℕ → α → β) :
    ∀ (l : List α) (j i : ℕ), (mapWithIndex f j l).get? i = (l.get? i).map (f (j + i)) := by
  intro l
  induction l with
  | nil => intro j i; simp [mapWithIndex]
  | cons a as ih =>
    intro j i
    cases i with
    | zero => simp [mapWithIndex]
    | succ i =>
      have harith : j + 1 + i = j + (i + 1) := by omega
      simp only [mapWithIndex, List.get?_cons_succ, ih (j + 1) i, harith]

theorem modifyAt_get? (f : α → α) :
    ∀ (l : List α) (j i : ℕ),
      (modifyAt f j l).get? i = if i = j then (l.get? i).map f else l.get? i := by
  intro l
  induction l with
  | nil =>
    intro j i
    have h1 : modifyAt f j ([] : List α) = [] := by cases j <;> rfl
    rw [h1]
    simp
  | cons a as ih =>
    intro j i
    cases j with
    | zero =>
      cases i with
      | zero => simp [modifyAt]
      | succ i => simp [modifyAt]
    | succ j =>
      have hstep : modifyAt f (j + 1) (a :: as) = a :: modifyAt f j as := rfl
      cases i with
      | zero => rw [hstep]; simp
      | succ i =>
        rw [hstep, List.get?_cons_succ, ih j i, List.get?_cons_succ]
        by_cases hij : i = j
        · rw [if_pos hij, if_pos (by omega)]
        · rw [if_neg hij, if_neg (by omega)]

theorem mapWithIndex_length (f : ℕ → α → β) :
    ∀ (l : List α) (j : ℕ), (mapWithIndex f j l).length = l.length := by
  intro l
  induction l with
  | nil => intro j; rfl
  | cons a as ih => intro j; simp [mapWithIndex, ih]

theorem modifyAt_length (f : α → α) :
    ∀ (l : List α) (j : ℕ), (modifyAt f j l).length = l.length := by
  intro l
  induction l with
  | nil => intro j; cases j <;> rfl
  | cons a as ih =>
    intro j
    cases j with
    | zero => rfl
    | succ j =>
      have hstep : modifyAt f (j + 1) (a :: as) = a :: modifyAt f j as := rfl
      rw [hstep, List.length_cons, List.length_cons, ih j]

theorem apply_event_length (sim : NetworkSimulator) (e : NetworkEvent) :
    (apply_event sim e).nodes.length = sim.nodes.length := by
  cases e with
  | node_connection p =>
    simp only [apply_event]
    split
    · exact modifyAt_length _ _ _
    · rfl
  | node_disconnection p coin =>
    simp only [apply_event]
    split
    · split
      · exact modifyAt_length _ _ _
      · rfl
    · rfl
  | network_congestion dLat dLoss =>
    simp only [apply_event]
    exact mapWithIndex_length _ _ _
  | packet_loss_event => rfl
  | bandwidth_fluctuation => rfl

theorem apply_event_status (sim : NetworkSimulator) (e : NetworkEvent) (i : ℕ)
    (n n' : AdvancedBlockchainNode)
    (h : sim.nodes.get? i = some n)
    (h' : (apply_event sim e).nodes.get? i = some n') :
    n'.status = n.status ∨ n'.status = "offline" := by
  have unchanged : sim.nodes.get? i = some n' →
      n'.status = n.status ∨ n'.status = "offline" := by
    intro hsame
    rw [h] at hsame
    exact Or.inl ((Option.some.inj hsame) ▸ rfl)
  have viaModify : ∀ (g : AdvancedBlockchainNode → AdvancedBlockchainNode),
      (∀ m, (g m).status = m.status ∨ (g m).status = "offline") →
      ∀ p, (modifyAt g p sim.nodes).get? i = some n' →
      n'.status = n.status ∨ n'.status = "offline" := by
    intro g hg p hmp
    rw [modifyAt_get? g sim.nodes p i] at hmp
    by_cases hip : i = p
    · rw [if_pos hip, h, Option.map_some'] at hmp
      have hn' : g n = n' := Option.some.inj hmp
      rcases hg n with hs | hs
      · exact Or.inl (hn' ▸ hs)
      · exact Or.inr (hn' ▸ hs)
    · rw [if_neg hip] at hmp
      exact unchanged hmp
  cases e with
  | node_connection p =>
    simp only [apply_event] at h'
    by_cases hc : 2 ≤ sim.nodes.length
    · rw [if_pos hc] at h'
      refine viaModify _ ?_ p h'
      intro m
      exact Or.inl rfl
    · rw [if_neg hc] at h'
      exact unchanged h'
  | node_disconnection p coin =>
    simp only [apply_event] at h'
    by_cases hc : 1 ≤ sim.nodes.length
    · rw [if_pos hc] at h'
      cases coin with
      | true =>
        rw [if_pos rfl] at h'
        refine viaModify _ ?_ p h'
        intro m
        exact Or.inr rfl
      | false =>
        rw [if_neg (by simp)] at h'
        exact unchanged h'
    · rw [if_neg hc] at h'
      exact unchanged h'
  | network_congestion dLat dLoss =>
    simp only [apply_event] at h'
    rw [mapWithIndex_get?] at h'
    rw [h, Option.map_some'] at h'
    exact Or.inl ((Option.some.inj h') ▸ rfl)
  | packet_loss_event => exact unchanged h'
  | bandwidth_fluctuation => exact unchanged h'

theorem foldl_apply_event_status :
    ∀ (events : List NetworkEvent) (sim : NetworkSimulator) (i : ℕ)
      (n n' : AdvancedBlockchainNode),
      sim.nodes.get? i = some n →
      (events.foldl apply_event sim).nodes.get? i = some n' →
      n'.status = n.status ∨ n'.status = "offline" := by
  intro events
  induction events with
  | nil =>
    intro sim i n n' h h'
    rw [List.foldl_nil, h] at h'
    exact Or.inl ((Option.some.inj h') ▸ rfl)
  | cons e es ih =>
    intro sim i n n' h h'
    have hi : i < sim.nodes.length := by
      by_contra hge
      rw [List.get?_eq_none.mpr (by omega)] at h
      cases h
    obtain ⟨n'', hn''⟩ : ∃ m, (apply_event sim e).nodes.get? i = some m := by
      cases hg : (apply_event sim e).nodes.get? i with
      | some m => exact ⟨m, rfl⟩
      | none =>
        rw [List.get?_eq_none, apply_event_length] at hg
        omega
    have step := apply_event_status sim e i n n'' h hn''
    have rest := ih (apply_event sim e) i n'' n' hn'' (by rwa [List.foldl_cons] at h')
    rcases rest with hr | hr
    · rcases step with hs | hs
      · exact Or.inl (by rw [hr, hs])
      · exact Or.inr (by rw [hr, hs])
    · exact Or.inr hr

theorem simulate_network_activity_eq (sim : NetworkSimulator) (draws : ℕ → MetricDraws)
    (events : List NetworkEvent) :
    simulate_network_activity sim draws events =
      events.foldl apply_event
        { sim with
          nodes := mapWithIndex (fun i n => update_metrics n (draws i)) 0 sim.nodes,
          network_load := min sim.total_bandwidth
            ((mapWithIndex (fun i n => update_metrics n (draws i)) 0 sim.nodes).map
              (fun n => n.node_metrics.network_io_mbps)).sum } := rfl

/-- C10: a node's status only moves from `"online"` to `"offline"`, never
back: across a full `simulate_network_activity` tick (metric updates plus any
sequence of injected events) the status of the node at any registry position
either is unchanged or is `"offline"`; `update_metrics` never touches the
status; and a constructed node starts `"online"`. Hence a node is online
exactly from construction until the first effective disconnection event. -/
theorem offline_status_persists :
    (∀ (sim : NetworkSimulator) (draws : ℕ → MetricDraws) (events : List NetworkEvent)
       (i : ℕ) (n n' : AdvancedBlockchainNode),
       sim.nodes.get? i = some n →
       (simulate_network_activity sim draws events).nodes.get? i = some n' →
       n'.status = n.status ∨ n'.status = "offline") ∧
    (∀ (n : AdvancedBlockchainNode) (d : MetricDraws),
       (update_metrics n d).status = n.status) ∧
    (∀ (node_id : String) (bh : ℕ) (cc : ℤ) (nm : NetworkMetrics) (rm : NodeMetrics),
       (AdvancedBlockchainNode.init node_id bh cc nm rm).status = "online") := by
  refine ⟨?_, fun n d => rfl, fun node_id bh cc nm rm => rfl⟩
  intro sim draws events i n n' h h'
  rw [simulate_network_activity_eq] at h'
  have h1 : ({ sim with
      nodes := mapWithIndex (fun i n => update_metrics n (draws i)) 0 sim.nodes,
      network_load := min sim.total_bandwidth
        ((mapWithIndex (fun i n => update_metrics n (draws i)) 0 sim.nodes).map
          (fun n => n.node_metrics.network_io_mbps)).sum } :
        NetworkSimulator).nodes.get? i = some (update_metrics n (draws (0 + i))) := by
    show (mapWithIndex (fun i n => update_metrics n (draws i)) 0 sim.nodes).get? i = _
    rw [mapWithIndex_get?, h, Option.map_some']
  have := foldl_apply_event_status events _ i (update_metrics n (draws (0 + i))) n' h1 h'
  rcases this with hs | hs
  · exact Or.inl (by rw [hs]; rfl)
  · exact Or.inr hs

/-- Witness for C10 on a one-node registry with an empty event list. -/
theorem offline_status_persists_witness :
    (update_metrics offNode (MetricDraws.mk 0 0 0 0 false)).status = offNode.status ∨
    (update_metrics offNode (MetricDraws.mk 0 0 0 0 false)).status = "offline" :=
  offline_status_persists.1 ⟨[offNode], 0, 1000⟩ (fun _ => ⟨0, 0, 0, 0, false⟩) [] 0
    offNode (update_metrics offNode (MetricDraws.mk 0 0 0 0 false)) rfl rfl
